/-
Verification of the security module (src/core/security.py) of the
federated-learning framework for healthcare data sharing.

The module under verification is the class SecurityManager, which wraps the
`cryptography` library: AES-256-GCM encryption/decryption, HMAC-SHA256
generation/verification, and RSA-PSS (2048-bit, SHA-256, maximum salt length)
key generation, signing and verification.

This file is a shallow embedding of that code:
  * bytes are `Fin 256`, byte strings are `List Byte`;
  * the primitives the library supplies (SHA-256, HMAC, AES, GCM, MGF1,
    EMSA-PSS, modular exponentiation) are implemented here in full, following
    FIPS 180-4, RFC 2104, FIPS 197, NIST SP 800-38D and RFC 8017, which the
    `cryptography` package implements;
  * `os.urandom(n)` is modelled by reading `n` bytes from an explicit entropy
    stream `ent : Nat → Byte` supplied by the environment;
  * a Python call that can raise is modelled as returning `Except`;
  * the PEM/DER serialization of RSA keys is modelled by an injective byte
    encoding with a partial-inverse parser, mirroring the relationship between
    `private_bytes`/`public_bytes` and `load_pem_private_key`/
    `load_pem_public_key`.

Two library behaviours that matter to the theorems below, from the
`cryptography` package's documented semantics:
  * a GCM `decryptor()` whose mode was built without an authentication tag
    (`modes.GCM(nonce)` rather than `modes.GCM(nonce, tag)`) raises
    `ValueError("Authentication tag must be provided when decrypting.")`
    at `finalize()`, before any tag comparison — `security.py` builds
    exactly such a mode in `decrypt_data`, and `encrypt_data` never reads
    `encryptor.tag`;
  * `HMAC.verify` and signature verification raise on mismatch and are
    caught by `except Exception` in `verify_hmac` / `verify_signature`,
    while `load_pem_public_key` in `verify_signature` is OUTSIDE the `try`
    block, so a key that fails to parse raises past the call boundary.
-/
import Mathlib

namespace FLSec

/-- A byte, the unit of all payloads handled by `security.py`. -/
abbrev Byte := Fin 256

/-- Truncate a machine integer to one byte. -/
def natByte (n : Nat) : Byte := ⟨n % 256, Nat.mod_lt _ (by norm_num)⟩

/-- Bitwise xor of two bytes. -/
def byteXor (a b : Byte) : Byte :=
  ⟨a.val ^^^ b.val, by
    have h := Nat.xor_lt_two_pow (x := a.val) (y := b.val) (n := 8)
    norm_num at h
    exact h⟩

/-- Bitwise and of two bytes. -/
def byteAnd (a b : Byte) : Byte :=
  ⟨a.val &&& b.val, lt_of_le_of_lt Nat.and_le_left a.isLt⟩

/-- Big-endian interpretation of a byte string as an unsigned integer
(RFC 8017 OS2IP; also used for 32-bit words and GCM block values). -/
def osToNat : List Byte → Nat
  | [] => 0
  | b :: rest => b.val * 256 ^ rest.length + osToNat rest

/-- Big-endian serialization of an unsigned integer into `len` bytes
(RFC 8017 I2OSP). -/
def natToOs : Nat → Nat → List Byte
  | _, 0 => []
  | x, len + 1 => natByte (x / 256 ^ len) :: natToOs (x % 256 ^ len) len

/-- Number of bytes needed to store `n` (the length `private_bytes` style
serializations use for a big integer). -/
def byteLen (n : Nat) : Nat := if n = 0 then 1 else n.log2 / 8 + 1

/-- Split a list into consecutive chunks of `size` elements (fuel-driven so
that the kernel can evaluate it). -/
def chunksAux {α : Type} (size : Nat) : Nat → List α → List (List α)
  | 0, _ => []
  | _, [] => []
  | fuel + 1, l => l.take size :: chunksAux size fuel (l.drop size)

/-- Split a list into consecutive chunks of `size` elements. -/
def chunks {α : Type} (size : Nat) (l : List α) : List (List α) :=
  chunksAux size l.length l

/-- Group bytes into big-endian 32-bit words (FIPS 180-4 message parsing,
also AES key schedule input). -/
def bytesToWords : List Byte → List Nat
  | b0 :: b1 :: b2 :: b3 :: rest =>
    (((b0.val * 256 + b1.val) * 256 + b2.val) * 256 + b3.val) :: bytesToWords rest
  | _ => []

/-- Truncation to a 32-bit word. -/
def w32 (n : Nat) : Nat := n % 4294967296

/-- 32-bit complement. -/
def wnot (x : Nat) : Nat := x ^^^ 4294967295

/-- 32-bit right rotation. -/
def rotr32 (n w : Nat) : Nat := w32 ((w >>> n) ||| (w <<< (32 - n)))

/-- FIPS 180-4 Σ₀. -/
def bsig0 (x : Nat) : Nat := rotr32 2 x ^^^ rotr32 13 x ^^^ rotr32 22 x

/-- FIPS 180-4 Σ₁. -/
def bsig1 (x : Nat) : Nat := rotr32 6 x ^^^ rotr32 11 x ^^^ rotr32 25 x

/-- FIPS 180-4 σ₀. -/
def ssig0 (x : Nat) : Nat := rotr32 7 x ^^^ rotr32 18 x ^^^ (x >>> 3)

/-- FIPS 180-4 σ₁. -/
def ssig1 (x : Nat) : Nat := rotr32 17 x ^^^ rotr32 19 x ^^^ (x >>> 10)

/-- FIPS 180-4 Ch. -/
def chF (x y z : Nat) : Nat := (x &&& y) ^^^ (wnot x &&& z)

/-- FIPS 180-4 Maj. -/
def majF (x y z : Nat) : Nat := (x &&& y) ^^^ (x &&& z) ^^^ (y &&& z)

/-- The SHA-256 round constants. -/
def shaK : List Nat :=
  [1116352408, 1899447441, 3049323471, 3921009573, 961987163, 1508970993,
   2453635748, 2870763221, 3624381080, 310598401, 607225278, 1426881987,
   1925078388, 2162078206, 2614888103, 3248222580, 3835390401, 4022224774,
   264347078, 604807628, 770255983, 1249150122, 1555081692, 1996064986,
   2554220882, 2821834349, 2952996808, 3210313671, 3336571891, 3584528711,
   113926993, 338241895, 666307205, 773529912, 1294757372, 1396182291,
   1695183700, 1986661051, 2177026350, 2456956037, 2730485921, 2820302411,
   3259730800, 3345764771, 3516065817, 3600352804, 4094571909, 275423344,
   430227734, 506948616, 659060556, 883997877, 958139571, 1322822218,
   1537002063, 1747873779, 1955562222, 2024104815, 2227730452, 2361852424,
   2428436474, 2756734187, 3204031479, 3329325298]

/-- The SHA-256 initial hash value. -/
def shaH0 : List Nat :=
  [1779033703, 3144134277, 1013904242, 2773480762, 1359893119, 2600822924,
   528734635, 1541459225]

/-- FIPS 180-4 padding: append 0x80, zeros to 56 mod 64, then the bit length
as a 64-bit big-endian integer. -/
def sha256Pad (m : List Byte) : List Byte :=
  m ++ [(128 : Byte)] ++ List.replicate ((119 - m.length % 64) % 64) (0 : Byte) ++
    natToOs (8 * m.length % 18446744073709551616) 8

/-- Extend the 16 message words to the 64-entry SHA-256 message schedule. -/
def shaExtend : Nat → List Nat → List Nat
  | 0, w => w
  | fuel + 1, w =>
    shaExtend fuel (w ++ [w32 (ssig1 (w.getD (w.length - 2) 0) + w.getD (w.length - 7) 0 +
      ssig0 (w.getD (w.length - 15) 0) + w.getD (w.length - 16) 0)])

/-- One SHA-256 compression round on the 8-word working state. -/
def shaRound (st : List Nat) (kw : Nat) : List Nat :=
  match st with
  | [a, b, c, d, e, f, g, h] =>
    let t1 := w32 (h + bsig1 e + chF e f g + kw)
    let t2 := w32 (bsig0 a + majF a b c)
    [w32 (t1 + t2), a, b, c, w32 (d + t1), e, f, g]
  | _ => st

/-- SHA-256 compression of one 64-byte block into the running hash. -/
def shaCompress (H : List Nat) (block : List Byte) : List Nat :=
  let w := shaExtend 48 (bytesToWords block)
  let st := (List.zipWith (fun k wi => w32 (k + wi)) shaK w).foldl shaRound H
  List.zipWith (fun a b => w32 (a + b)) H st

/-- Serialize one 32-bit word into 4 big-endian bytes. -/
def wordBytes (w : Nat) : List Byte :=
  [natByte (w >>> 24), natByte (w >>> 16), natByte (w >>> 8), natByte w]

/-- SHA-256 (FIPS 180-4), as `hashes.SHA256()` computes it. -/
def sha256 (m : List Byte) : List Byte :=
  (((chunks 64 (sha256Pad m)).foldl shaCompress shaH0).map wordBytes).flatten

/-- HMAC-SHA256 (RFC 2104), as `hmac.HMAC(key, hashes.SHA256())` computes it. -/
def hmacSha256 (key msg : List Byte) : List Byte :=
  let k0 := if 64 < key.length then sha256 key else key
  let kp := k0 ++ List.replicate (64 - k0.length) (0 : Byte)
  sha256 ((kp.map (fun b => byteXor b (92 : Byte))) ++
    sha256 ((kp.map (fun b => byteXor b (54 : Byte))) ++ msg))

/-- The AES S-box (FIPS 197 figure 7). -/
def sbox : List Nat :=
  [99, 124, 119, 123, 242, 107, 111, 197, 48, 1, 103, 43, 254, 215, 171, 118,
   202, 130, 201, 125, 250, 89, 71, 240, 173, 212, 162, 175, 156, 164, 114, 192,
   183, 253, 147, 38, 54, 63, 247, 204, 52, 165, 229, 241, 113, 216, 49, 21,
   4, 199, 35, 195, 24, 150, 5, 154, 7, 18, 128, 226, 235, 39, 178, 117,
   9, 131, 44, 26, 27, 110, 90, 160, 82, 59, 214, 179, 41, 227, 47, 132,
   83, 209, 0, 237, 32, 252, 177, 91, 106, 203, 190, 57, 74, 76, 88, 207,
   208, 239, 170, 251, 67, 77, 51, 133, 69, 249, 2, 127, 80, 60, 159, 168,
   81, 163, 64, 143, 146, 157, 56, 245, 188, 182, 218, 33, 16, 255, 243, 210,
   205, 12, 19, 236, 95, 151, 68, 23, 196, 167, 126, 61, 100, 93, 25, 115,
   96, 129, 79, 220, 34, 42, 144, 136, 70, 238, 184, 20, 222, 94, 11, 219,
   224, 50, 58, 10, 73, 6, 36, 92, 194, 211, 172, 98, 145, 149, 228, 121,
   231, 200, 55, 109, 141, 213, 78, 169, 108, 86, 244, 234, 101, 122, 174, 8,
   186, 120, 37, 46, 28, 166, 180, 198, 232, 221, 116, 31, 75, 189, 139, 138,
   112, 62, 181, 102, 72, 3, 246, 14, 97, 53, 87, 185, 134, 193, 29, 158,
   225, 248, 152, 17, 105, 217, 142, 148, 155, 30, 135, 233, 206, 85, 40, 223,
   140, 161, 137, 13, 191, 230, 66, 104, 65, 153, 45, 15, 176, 84, 187, 22]

/-- S-box substitution of one byte value. -/
def subByte (n : Nat) : Nat := sbox.getD (n % 256) 0

/-- AES key-schedule word rotation. -/
def rotWord (w : Nat) : Nat := w32 ((w <<< 8) ||| (w >>> 24))

/-- AES key-schedule word substitution. -/
def subWord (w : Nat) : Nat :=
  (subByte (w >>> 24)) <<< 24 ||| (subByte ((w >>> 16) % 256)) <<< 16 |||
    (subByte ((w >>> 8) % 256)) <<< 8 ||| subByte (w % 256)

/-- AES round constants (the ones AES-256 reaches). -/
def aesRcon : List Nat := [1, 2, 4, 8, 16, 32, 64]

/-- Expand the key schedule words one at a time (FIPS 197 §5.2, Nk = 8). -/
def expandKeyAux : Nat → List Nat → List Nat
  | 0, ws => ws
  | fuel + 1, ws =>
    let i := ws.length
    let prev := ws.getD (i - 1) 0
    let t := if i % 8 = 0 then (subWord (rotWord prev)) ^^^ ((aesRcon.getD (i / 8 - 1) 0) <<< 24)
      else if i % 8 = 4 then subWord prev
      else prev
    expandKeyAux fuel (ws ++ [(ws.getD (i - 8) 0) ^^^ t])

/-- The 60-word AES-256 key schedule. -/
def keySchedule (key : List Byte) : List Nat := expandKeyAux 52 (bytesToWords key)

/-- Multiplication by x in GF(2^8) (FIPS 197 §4.2.1). -/
def xtime (a : Nat) : Nat := ((a <<< 1) ^^^ (if 128 ≤ a then 27 else 0)) % 256

/-- ShiftRows on the column-major flat 16-byte state. -/
def shiftRows (s : List Nat) : List Nat :=
  (List.range 16).map (fun i => s.getD (i % 4 + 4 * ((i / 4 + i % 4) % 4)) 0)

/-- MixColumns on one 4-byte column. -/
def mixColumn : List Nat → List Nat
  | [a0, a1, a2, a3] =>
    [xtime a0 ^^^ (xtime a1 ^^^ a1) ^^^ a2 ^^^ a3,
     a0 ^^^ xtime a1 ^^^ (xtime a2 ^^^ a2) ^^^ a3,
     a0 ^^^ a1 ^^^ xtime a2 ^^^ (xtime a3 ^^^ a3),
     (xtime a0 ^^^ a0) ^^^ a1 ^^^ a2 ^^^ xtime a3]
  | l => l

/-- MixColumns on the whole state. -/
def mixColumns (s : List Nat) : List Nat := ((chunks 4 s).map mixColumn).flatten

/-- The 16 bytes of round key `r`, serialized from the schedule words. -/
def roundKeyBytes (ws : List Nat) (r : Nat) : List Nat :=
  (List.range 16).map (fun i => ((ws.getD (4 * r + i / 4) 0) >>> (8 * (3 - i % 4))) % 256)

/-- AddRoundKey: bytewise xor of state and round key. -/
def addRoundKey (s k : List Nat) : List Nat := List.zipWith (fun a b => a ^^^ b) s k

/-- AES-256 encryption of one 16-byte block (FIPS 197 §5.1, Nr = 14). -/
def aesEncryptBlock (key : List Byte) (block : List Nat) : List Nat :=
  let ws := keySchedule key
  let st0 := addRoundKey block (roundKeyBytes ws 0)
  let stN := (List.range 13).foldl
    (fun st r => addRoundKey (mixColumns (shiftRows (st.map subByte))) (roundKeyBytes ws (r + 1)))
    st0
  addRoundKey (shiftRows (stN.map subByte)) (roundKeyBytes ws 14)

/-- Big-endian value of a list of byte-sized machine integers. -/
def beNat (l : List Nat) : Nat := l.foldl (fun acc b => acc * 256 + b % 256) 0

/-- Serialize a 128-bit value into 16 byte-sized machine integers. -/
def natBlock (n : Nat) : List Nat := (List.range 16).map (fun i => (n >>> (8 * (15 - i))) % 256)

/-- The GF(2^128) reduction block R of NIST SP 800-38D §6.3. -/
def gcmR : Nat := 225 <<< 120

/-- Multiplication in GF(2^128) (SP 800-38D §6.3). -/
def gf128Mul (x y : Nat) : Nat :=
  ((List.range 128).foldl (fun zv i =>
    let z := if x.testBit (127 - i) then zv.1 ^^^ zv.2 else zv.1
    let v := if zv.2 % 2 = 1 then (zv.2 >>> 1) ^^^ gcmR else zv.2 >>> 1
    (z, v)) ((0 : Nat), y)).1

/-- GHASH of a byte string under hash subkey `h` (SP 800-38D §6.4). -/
def ghash (h : Nat) (data : List Byte) : Nat :=
  (chunks 16 data).foldl (fun y b => gf128Mul (y ^^^ osToNat b) h) 0

/-- The GCM hash subkey H = AES(K, 0^128). -/
def gcmHsub (key : List Byte) : Nat := beNat (aesEncryptBlock key (List.replicate 16 0))

/-- The pre-counter block J0 for an IV that is not 96 bits long — here the
16-byte nonce `os.urandom(AES_BLOCK_SIZE)` draws (SP 800-38D §7.1). -/
def gcmJ0 (key nonce : List Byte) : Nat :=
  ghash (gcmHsub key) (nonce ++ List.replicate 8 (0 : Byte) ++ natToOs (8 * nonce.length) 8)

/-- Increment the low 32 bits of a counter block (SP 800-38D inc32). -/
def inc32 (j : Nat) : Nat := ((j >>> 32) <<< 32) ||| ((j % 4294967296 + 1) % 4294967296)

/-- The first `n` bytes of the GCM CTR keystream. -/
def gcmKeystream (key nonce : List Byte) (n : Nat) : List Nat :=
  ((((List.range ((n + 15) / 16)).map
    (fun i => aesEncryptBlock key (natBlock (inc32^[i + 1] (gcmJ0 key nonce))))).flatten).take n)

/-- CTR encryption of a payload, exactly what GCM's `encryptor.update` emits:
the plaintext xored with the keystream (SP 800-38D §7.1 step 3). The output
has the plaintext's length; the authentication tag is NOT part of it. -/
def gcmCtrEncrypt (key nonce pt : List Byte) : List Byte :=
  List.zipWith (fun (p : Byte) k => byteXor p (natByte k)) pt (gcmKeystream key nonce pt.length)

/-- The 16-byte GCM authentication tag over empty AAD (SP 800-38D §7.1 steps
5-8). The Python code could read it as `encryptor.tag` after `finalize()`,
but `security.py` never does. -/
def gcmTag (key nonce ct : List Byte) : List Byte :=
  let s := ghash (gcmHsub key)
    (ct ++ List.replicate ((16 - ct.length % 16) % 16) (0 : Byte) ++
      natToOs 0 8 ++ natToOs (8 * ct.length % 18446744073709551616) 8)
  natToOs (beNat (aesEncryptBlock key (natBlock (gcmJ0 key nonce))) ^^^ s) 16

/-- The state of a `SecurityManager` instance: the caller-supplied AES key and
the per-instance HMAC key drawn from `os.urandom` at construction. -/
structure SecurityManager where
  secret_key : List Byte
  hmac_key : List Byte
deriving DecidableEq

/-- The failures `security.py` can raise, by their source. -/
inductive SecurityError where
  /-- ValueError "Secret key must be 32 bytes long." raised by `__init__`. -/
  | keyLength
  /-- ValueError raised by `algorithms.AES` on a key that is not 128/192/256 bits. -/
  | invalidAesKey
  /-- ValueError raised by `modes.GCM` on an IV shorter than 8 or longer than 128 bytes. -/
  | invalidNonce
  /-- ValueError "Authentication tag must be provided when decrypting." raised by
  a GCM decryptor finalized without a tag. -/
  | missingTag
  /-- InvalidTag raised when a GCM tag comparison fails (the AuthenticationFailure
  of the specification; unreachable from `decrypt_data`). -/
  | authenticationFailure
  /-- ValueError raised by `load_pem_public_key`/`load_pem_private_key` on bytes
  that do not parse as a key (the KeyFormatError of the specification). -/
  | keyFormat
deriving DecidableEq

/-- `os.urandom n`: the next `n` bytes of the operating-system entropy stream. -/
def urandom (n : Nat) (ent : Nat → Byte) : List Byte := (List.range n).map ent

/-- An all-zeros entropy stream: one possible state of the OS pool. -/
def zeroEnt : Nat → Byte := fun _ => 0

/-- `AES_KEY_SIZE` of `security.py`. -/
def AES_KEY_SIZE : Nat := 32

/-- `AES_BLOCK_SIZE` of `security.py` (also the nonce length drawn by `encrypt_data`). -/
def AES_BLOCK_SIZE : Nat := 16

/-- `HMAC_KEY_SIZE` of `security.py`. -/
def HMAC_KEY_SIZE : Nat := 32

/-- `SecurityManager.__init__`: reject a key that is not exactly 32 bytes with
ValueError, then draw a fresh 32-byte HMAC key from `os.urandom`. -/
def SecurityManager.init (secret_key : List Byte) (ent : Nat → Byte) :
    Except SecurityError SecurityManager :=
  if secret_key.length ≠ AES_KEY_SIZE then .error .keyLength
  else .ok ⟨secret_key, urandom HMAC_KEY_SIZE ent⟩

/-- `encrypt_data`: draw a fresh 16-byte nonce, run AES-GCM over the plaintext
and return `(ciphertext, nonce)`. `encryptor.update` returns the CTR stream
cipher bytes and `finalize()` returns the empty string for GCM, so the result
carries no authentication tag: `encryptor.tag` is never read. The 16-byte
nonce always satisfies GCM's 8..128-byte IV bound. -/
def SecurityManager.encrypt_data (m : SecurityManager) (plaintext : List Byte)
    (ent : Nat → Byte) : Except SecurityError (List Byte × List Byte) :=
  let nonce := urandom AES_BLOCK_SIZE ent
  if m.secret_key.length = 16 ∨ m.secret_key.length = 24 ∨ m.secret_key.length = 32 then
    .ok (gcmCtrEncrypt m.secret_key nonce plaintext, nonce)
  else .error .invalidAesKey

/-- The `cryptography` GCM decryption flow: `update` runs the CTR stream and
`finalize` either raises ValueError when the mode carries no tag, or compares
the tag and only then releases the plaintext. -/
def gcmDecrypt (key nonce ct : List Byte) (tag : Option (List Byte)) :
    Except SecurityError (List Byte) :=
  match tag with
  | none => .error .missingTag
  | some t =>
    if t = gcmTag key nonce ct then .ok (gcmCtrEncrypt key nonce ct)
    else .error .authenticationFailure

/-- `decrypt_data`: rebuild the cipher from `(ciphertext, nonce)`. The mode is
constructed as `modes.GCM(nonce)` — with no tag argument — so `finalize()`
always raises the missing-tag ValueError before any plaintext is returned. -/
def SecurityManager.decrypt_data (m : SecurityManager) (ciphertext nonce : List Byte) :
    Except SecurityError (List Byte) :=
  if ¬ (m.secret_key.length = 16 ∨ m.secret_key.length = 24 ∨ m.secret_key.length = 32) then
    .error .invalidAesKey
  else if nonce.length < 8 ∨ 128 < nonce.length then .error .invalidNonce
  else gcmDecrypt m.secret_key nonce ciphertext none

/-- `generate_hmac`: HMAC-SHA256 of the data under the instance's HMAC key. -/
def SecurityManager.generate_hmac (m : SecurityManager) (data : List Byte) : List Byte :=
  hmacSha256 m.hmac_key data

/-- `verify_hmac`: recompute the tag and compare. `HMAC.verify` performs the
library's constant-time comparison and raises InvalidSignature on mismatch,
which the `except Exception` turns into the boolean False. -/
def SecurityManager.verify_hmac (m : SecurityManager) (data hmac_value : List Byte) : Bool :=
  decide (hmacSha256 m.hmac_key data = hmac_value)

/-- Flip bit `b mod 8` of the byte at position `i` of a byte string. -/
def flipBit (l : List Byte) (i b : Nat) : List Byte :=
  l.set i (byteXor (l.getD i 0) (natByte (1 <<< (b % 8))))

/-- The manager the module's own `__main__` example would build when the OS
entropy pool happens to produce zero bytes: a 32-byte all-zero AES key and a
32-byte all-zero HMAC key. -/
def exampleManager : SecurityManager :=
  ⟨List.replicate 32 (0 : Byte), urandom 32 zeroEnt⟩

/-- The module's own example plaintext, b"Sensitive healthcare data". -/
def examplePlaintext : List Byte :=
  [83, 101, 110, 115, 105, 116, 105, 118, 101, 32, 104, 101, 97, 108, 116, 104,
   99, 97, 114, 101, 32, 100, 97, 116, 97]

/-- The AES-256-GCM ciphertext of the example plaintext under the all-zero key
and all-zero 16-byte nonce (cross-checked against an independent GCM
implementation). -/
def exampleCiphertext : List Byte :=
  [140, 54, 174, 126, 89, 99, 87, 253, 249, 254, 85, 184, 77, 207, 178, 215,
   37, 250, 37, 77, 18, 29, 144, 150, 166]

/-- Fuel-driven binary modular exponentiation — what RSA implementations
compute; fuel `k` suffices since the exponent halves each step, and the
structure keeps the kernel able to evaluate it on 2048-bit-scale inputs. -/
def powModAux : Nat → Nat → Nat → Nat → Nat
  | 0, _, _, n => 1 % n
  | fuel + 1, a, k, n =>
    if k = 0 then 1 % n
    else
      let h := powModAux fuel (a * a % n) (k / 2) n
      if k % 2 = 1 then h * (a % n) % n else h

/-- Binary modular exponentiation `a ^ k mod n`. -/
def powMod (a k n : Nat) : Nat := powModAux k a k n

/-- RFC 8017 MGF1 with SHA-256. -/
def mgf1 (seed : List Byte) (maskLen : Nat) : List Byte :=
  ((((List.range ((maskLen + 31) / 32)).map
    (fun c => sha256 (seed ++ natToOs c 4))).flatten).take maskLen)

/-- Zero the topmost `bits` bits of the first byte — the 8·emLen − emBits
leftmost bits of EMSA-PSS's maskedDB. -/
def maskClearTop (l : List Byte) (bits : Nat) : List Byte :=
  match l with
  | [] => []
  | b :: rest => byteAnd b (natByte (255 >>> bits)) :: rest

/-- RFC 8017 EMSA-PSS-ENCODE with SHA-256, on a caller-supplied salt (the
library draws `emLen − 34` fresh salt bytes for `PSS.MAX_LENGTH`). -/
def emsaPssEncode (mHash salt : List Byte) (emBits : Nat) : List Byte :=
  let emLen := (emBits + 7) / 8
  let h := sha256 (List.replicate 8 (0 : Byte) ++ mHash ++ salt)
  let db := List.replicate (emLen - salt.length - 34) (0 : Byte) ++ [(1 : Byte)] ++ salt
  let maskedDB := List.zipWith byteXor db (mgf1 h (emLen - 33))
  maskClearTop maskedDB (8 * emLen - emBits) ++ h ++ [(188 : Byte)]

/-- RFC 8017 EMSA-PSS-VERIFY with SHA-256 and expected salt length `sLen`
(the maximum salt length, which is what the signing side always uses). Any
`false` here is what the library surfaces by raising InvalidSignature. -/
def emsaPssVerify (mHash em : List Byte) (emBits sLen : Nat) : Bool :=
  let emLen := (emBits + 7) / 8
  let bits := 8 * emLen - emBits
  let maskedDB := em.take (emLen - 33)
  let h := (em.drop (emLen - 33)).take 32
  let db := maskClearTop (List.zipWith byteXor maskedDB (mgf1 h (emLen - 33))) bits
  decide (em.length = emLen) &&
    decide (sLen + 34 ≤ emLen) &&
    decide (em.getD (emLen - 1) 0 = (188 : Byte)) &&
    decide ((maskedDB.getD 0 0).val >>> (8 - bits) = 0) &&
    decide (db.take (emLen - sLen - 34) = List.replicate (emLen - sLen - 34) (0 : Byte)) &&
    decide (db.getD (emLen - sLen - 34) 0 = (1 : Byte)) &&
    decide (h = sha256 (List.replicate 8 (0 : Byte) ++ mHash ++ db.drop (emLen - sLen - 33)))

/-- The modulus bit length: Python's `n.bit_length()`, the library's
`key_size`. -/
def modBits (n : Nat) : Nat := Nat.log2 n + 1

/-- The EMSA-PSS encoded-message length in bytes, ceil((modBits − 1)/8). -/
def emLenOf (n : Nat) : Nat := (modBits n - 1 + 7) / 8

/-- The signature length in bytes: the modulus length. -/
def sigLen (n : Nat) : Nat := (modBits n + 7) / 8

/-- The salt length `PSS.MAX_LENGTH` selects: emLen − hLen − 2. -/
def pssSaltLen (n : Nat) : Nat := emLenOf n - 34

/-- RSASSA-PSS-SIGN (RFC 8017 §8.1.1): EMSA-PSS encode, s = m^d mod n,
serialized to the modulus length. -/
def rsaPssSign (n d : Nat) (data salt : List Byte) : List Byte :=
  natToOs (powMod (osToNat (emsaPssEncode (sha256 data) salt (modBits n - 1))) d n) (sigLen n)

/-- RSASSA-PSS-VERIFY (RFC 8017 §8.1.2): length check, range check,
m = s^e mod n, EMSA-PSS verify. -/
def rsaPssVerify (n e : Nat) (data sig : List Byte) : Bool :=
  decide (sig.length = sigLen n) && decide (osToNat sig < n) &&
    emsaPssVerify (sha256 data) (natToOs (powMod (osToNat sig) e n) (emLenOf n))
      (modBits n - 1) (pssSaltLen n)

/-- Stand-in for the PEM/SubjectPublicKeyInfo serialization `public_bytes`
emits for an RSA public key `(n, e)`: header bytes, 4-byte big-endian e,
then n big-endian. -/
def pubPemEncode (n e : Nat) : List Byte :=
  80 :: 85 :: 66 :: (natToOs e 4 ++ natToOs n (byteLen n))

/-- Stand-in for `load_pem_public_key`: the partial inverse of
`pubPemEncode`; `none` models the ValueError raised on bytes that are not a
PEM public key. -/
def pubPemParse (l : List Byte) : Option (Nat × Nat) :=
  if l.take 3 = [80, 85, 66] ∧ 7 ≤ l.length then
    some (osToNat (l.drop 7), osToNat ((l.drop 3).take 4))
  else none

/-- Stand-in for the PKCS8 PEM serialization `private_bytes` emits: header
bytes, 4-byte big-endian e, then n and d big-endian in two equal-width
fields. -/
def privPemEncode (n e d : Nat) : List Byte :=
  80 :: 82 :: 86 :: (natToOs e 4 ++ (natToOs n (byteLen n) ++ natToOs d (byteLen n)))

/-- Stand-in for `load_pem_private_key`: the partial inverse of
`privPemEncode`. -/
def privPemParse (l : List Byte) : Option (Nat × Nat × Nat) :=
  if l.take 3 = [80, 82, 86] ∧ 7 ≤ l.length then
    some (osToNat ((l.drop 7).take ((l.length - 7) / 2)), osToNat ((l.drop 3).take 4),
      osToNat ((l.drop 7).drop ((l.length - 7) / 2)))
  else none

/-- `generate_rsa_keypair`, given the two primes the library's randomized
generator drew: n = p·q, e = 65537, d = e⁻¹ mod λ(n) computed by the extended
Euclidean algorithm (as OpenSSL does), both halves serialized in PEM form. -/
def SecurityManager.generate_rsa_keypair (p q : Nat) : List Byte × List Byte :=
  let n := p * q
  let lam := Nat.lcm (p - 1) (q - 1)
  let d := (Nat.gcdA 65537 lam % (lam : Int)).toNat
  (privPemEncode n 65537 d, pubPemEncode n 65537)

/-- `sign_data`: parse the private-key PEM — a failure raises, there is no
try/except in `sign_data` — then RSA-PSS sign with a fresh salt of the
maximum length drawn from `os.urandom`. -/
def SecurityManager.sign_data (private_key_pem data : List Byte) (ent : Nat → Byte) :
    Except SecurityError (List Byte) :=
  match privPemParse private_key_pem with
  | none => .error .keyFormat
  | some (n, _, d) => .ok (rsaPssSign n d data (urandom (pssSaltLen n) ent))

/-- `verify_signature`: `load_pem_public_key` runs OUTSIDE the try block, so
a parse failure raises past the call boundary; inside the try, any
verification failure (`InvalidSignature`, wrong length, out-of-range value,
failed PSS consistency) is caught and returned as the boolean False. -/
def SecurityManager.verify_signature (public_key_pem data signature : List Byte) :
    Except SecurityError Bool :=
  match pubPemParse public_key_pem with
  | none => .error .keyFormat
  | some (n, e) => .ok (rsaPssVerify n e data signature)

/-- A 133-bit prime (p − 1 = 2^61 · 3^45), a possible draw of the library's
prime generator; the smooth p − 1 makes its Lucas certificate checkable. -/
def rsaP : Nat := 6812181301431427144844238278744799707137

/-- A 136-bit prime (q − 1 = 2^77 · 3^37), a second possible draw. -/
def rsaQ : Nat := 68044979998568817156609053472918639476737

-- ===================== THEOREMS =====================

/-- `shaRound` preserves the 8-word state shape. -/
theorem shaRound_length (st : List Nat) (k : Nat) (h : st.length = 8) :
    (shaRound st k).length = 8 := by
  unfold shaRound
  split
  · rfl
  · exact h

/-- Folding `shaRound` preserves the 8-word state shape. -/
theorem foldl_shaRound_length (l : List Nat) (st : List Nat) (h : st.length = 8) :
    (l.foldl shaRound st).length = 8 := by
  induction l generalizing st with
  | nil => exact h
  | cons x xs ih => exact ih _ (shaRound_length st x h)

/-- `shaCompress` preserves the 8-word hash shape. -/
theorem shaCompress_length (H : List Nat) (b : List Byte) (h : H.length = 8) :
    (shaCompress H b).length = 8 := by
  unfold shaCompress
  rw [List.length_zipWith, h, foldl_shaRound_length _ _ h]
  rfl

/-- Folding `shaCompress` preserves the 8-word hash shape. -/
theorem foldl_shaCompress_length (l : List (List Byte)) (H : List Nat) (h : H.length = 8) :
    (l.foldl shaCompress H).length = 8 := by
  induction l generalizing H with
  | nil => exact h
  | cons x xs ih => exact ih _ (shaCompress_length H x h)

/-- Flattening 4-byte word serializations quadruples the length. -/
theorem flatten_wordBytes_length (H : List Nat) :
    ((H.map wordBytes).flatten).length = 4 * H.length := by
  induction H with
  | nil => rfl
  | cons x xs ih =>
    simp only [List.map_cons, List.flatten_cons, List.length_append, ih, List.length_cons]
    have h4 : (wordBytes x).length = 4 := rfl
    omega

/-- A SHA-256 digest is always exactly 32 bytes. -/
theorem sha256_length (m : List Byte) : (sha256 m).length = 32 := by
  unfold sha256
  rw [flatten_wordBytes_length, foldl_shaCompress_length _ _ (by rfl)]

/-- An HMAC-SHA256 tag is always exactly 32 bytes. -/
theorem hmacSha256_length (key msg : List Byte) : (hmacSha256 key msg).length = 32 :=
  sha256_length _

set_option maxRecDepth 100000 in
/-- FIPS 180-4 test vector: the digest of the empty message. -/
theorem sha256_empty_vector :
    sha256 [] =
      [227, 176, 196, 66, 152, 252, 28, 20, 154, 251, 244, 200, 153, 111, 185, 36,
       39, 174, 65, 228, 100, 155, 147, 76, 164, 149, 153, 27, 120, 82, 184, 85] := by
  decide

set_option maxRecDepth 100000 in
/-- FIPS 180-4 test vector: the digest of "abc". -/
theorem sha256_abc_vector :
    sha256 [97, 98, 99] =
      [186, 120, 22, 191, 143, 1, 207, 234, 65, 65, 64, 222, 93, 174, 34, 35,
       176, 3, 97, 163, 150, 23, 122, 156, 180, 16, 255, 97, 242, 0, 21, 173] := by
  decide

set_option maxRecDepth 100000 in
/-- RFC 2104 cross-check: HMAC-SHA256 of "abc" under the all-zero 32-byte key. -/
theorem hmacSha256_vector :
    hmacSha256 (List.replicate 32 (0 : Byte)) [97, 98, 99] =
      [253, 122, 219, 21, 44, 5, 239, 128, 220, 207, 80, 161, 250, 76, 5, 213,
       163, 236, 109, 169, 85, 117, 252, 49, 42, 231, 197, 208, 145, 131, 99, 81] := by
  decide

/-- Flattening a map whose images all have length `c`. -/
theorem flatten_map_const_length {α β : Type} (f : α → List β) (c : Nat)
    (hf : ∀ x, (f x).length = c) (l : List α) :
    ((l.map f).flatten).length = c * l.length := by
  induction l with
  | nil => simp
  | cons x xs ih =>
    simp only [List.map_cons, List.flatten_cons, List.length_append, ih, List.length_cons]
    rw [hf x, Nat.mul_succ]
    omega

/-- An AES block encryption always yields 16 bytes. -/
theorem aesEncryptBlock_length (key : List Byte) (block : List Nat) :
    (aesEncryptBlock key block).length = 16 := by
  unfold aesEncryptBlock addRoundKey shiftRows roundKeyBytes
  simp [List.length_zipWith]

/-- The GCM keystream delivers exactly the requested number of bytes. -/
theorem gcmKeystream_length (key nonce : List Byte) (n : Nat) :
    (gcmKeystream key nonce n).length = n := by
  unfold gcmKeystream
  rw [List.length_take, flatten_map_const_length _ 16 (fun i => aesEncryptBlock_length _ _)]
  have := Nat.div_add_mod (n + 15) 16
  have := Nat.mod_lt (n + 15) (y := 16) (by norm_num)
  simp only [List.length_range]
  omega

/-- GCM `update` output has exactly the plaintext's length. -/
theorem gcmCtrEncrypt_length (key nonce pt : List Byte) :
    (gcmCtrEncrypt key nonce pt).length = pt.length := by
  unfold gcmCtrEncrypt
  rw [List.length_zipWith, gcmKeystream_length]
  simp

set_option maxRecDepth 1000000 in
/-- Full-path cross-check of the AES-256-GCM encryption flow on the module's
own example: all-zero 32-byte key, all-zero 16-byte nonce, example plaintext
(ciphertext validated against an independent GCM implementation). -/
theorem gcm_example_vector :
    exampleManager.encrypt_data examplePlaintext zeroEnt =
      .ok (exampleCiphertext, urandom 16 zeroEnt) := rfl

/-- Any decryption attempt by a context whose key passed `__init__` and whose
nonce has a GCM-acceptable length reaches `finalize()` on a tagless GCM mode
and raises the missing-tag ValueError. -/
theorem decrypt_data_missingTag (m : SecurityManager) (ct nonce : List Byte)
    (hk : m.secret_key.length = 32) (h8 : 8 ≤ nonce.length) (h128 : nonce.length ≤ 128) :
    m.decrypt_data ct nonce = .error .missingTag := by
  unfold SecurityManager.decrypt_data
  rw [if_neg (by simp [hk]), if_neg (by omega)]
  rfl

/-- Inversion of `__init__`: a successfully constructed manager carries the
supplied 32-byte key and the entropy-drawn HMAC key. -/
theorem init_inv (k : List Byte) (ent : Nat → Byte) (m : SecurityManager)
    (h : SecurityManager.init k ent = .ok m) :
    m = ⟨k, urandom 32 ent⟩ ∧ k.length = 32 := by
  unfold SecurityManager.init at h
  split at h
  · simp at h
  · next hcond =>
    injection h with h2
    refine ⟨h2.symm, ?_⟩
    unfold AES_KEY_SIZE at hcond
    omega

/-- Inversion of `encrypt_data`: a successful encryption returns the CTR
stream bytes and the 16-byte entropy-drawn nonce. -/
theorem encrypt_data_inv (m : SecurityManager) (pt ct nonce : List Byte) (ent : Nat → Byte)
    (h : m.encrypt_data pt ent = .ok (ct, nonce)) :
    ct = gcmCtrEncrypt m.secret_key (urandom 16 ent) pt ∧ nonce = urandom 16 ent := by
  unfold SecurityManager.encrypt_data at h
  split at h
  · injection h with h2
    injection h2 with h3 h4
    exact ⟨h3.symm, h4.symm⟩
  · simp at h

/-- C1 (code bug): the encrypt/decrypt round trip can never succeed. For any
context built by `__init__` and any `(ciphertext, nonce)` pair returned by
`encrypt_data`, `decrypt_data` raises the missing-tag ValueError — it cannot
return the original plaintext (or any plaintext at all), because
`encrypt_data` discarded `encryptor.tag` and `decrypt_data` constructs
`modes.GCM(nonce)` without a tag. This contradicts the module's own
`__main__` assertion `plaintext == decrypted`. -/
theorem decrypt_roundtrip_always_fails (k pt : List Byte) (ent entN : Nat → Byte)
    (m : SecurityManager) (ct nonce : List Byte)
    (hm : SecurityManager.init k ent = .ok m)
    (henc : m.encrypt_data pt entN = .ok (ct, nonce)) :
    m.decrypt_data ct nonce = .error .missingTag ∧
      ∀ res : List Byte, m.decrypt_data ct nonce ≠ .ok res := by
  obtain ⟨hmk, hklen⟩ := init_inv k ent m hm
  obtain ⟨hct, hnonce⟩ := encrypt_data_inv m pt ct nonce entN henc
  have hk : m.secret_key.length = 32 := by rw [hmk]; exact hklen
  have hn : nonce.length = 16 := by rw [hnonce]; simp [urandom]
  have hfail := decrypt_data_missingTag m ct nonce hk (by omega) (by omega)
  exact ⟨hfail, fun res hok => by rw [hfail] at hok; cases hok⟩

/-- C1 witness: the concrete example run — zero key, zero entropy, the
module's own example plaintext — ends in the missing-tag error. -/
theorem decrypt_roundtrip_always_fails_w :
    exampleManager.decrypt_data exampleCiphertext (urandom 16 zeroEnt) =
      .error .missingTag :=
  (decrypt_roundtrip_always_fails (List.replicate 32 0) examplePlaintext zeroEnt zeroEnt
    exampleManager exampleCiphertext (urandom 16 zeroEnt) rfl gcm_example_vector).1

/-- C2 (code bug): tampering is never answered with AuthenticationFailure.
Decrypting a sealed message with any single bit of its ciphertext or nonce
flipped fails with the missing-tag ValueError — exactly as the untampered
message does, and as any 32-byte-key context does — because the discarded tag
makes the authentication check unreachable. No plaintext is released on any
of these paths, but the promised AuthenticationFailure never occurs either. -/
theorem tamper_never_authenticationFailure (k pt : List Byte) (ent entN : Nat → Byte)
    (m : SecurityManager) (ct nonce : List Byte) (i b : Nat)
    (hm : SecurityManager.init k ent = .ok m)
    (henc : m.encrypt_data pt entN = .ok (ct, nonce)) :
    m.decrypt_data (flipBit ct i b) nonce = .error .missingTag ∧
      m.decrypt_data ct (flipBit nonce i b) = .error .missingTag ∧
      (∀ mp : SecurityManager, mp.secret_key.length = 32 →
        mp.decrypt_data ct nonce = .error .missingTag) ∧
      (∀ res : List Byte, m.decrypt_data (flipBit ct i b) nonce ≠ .ok res) ∧
      SecurityError.missingTag ≠ SecurityError.authenticationFailure := by
  obtain ⟨hmk, hklen⟩ := init_inv k ent m hm
  obtain ⟨hct, hnonce⟩ := encrypt_data_inv m pt ct nonce entN henc
  have hk : m.secret_key.length = 32 := by rw [hmk]; exact hklen
  have hn : nonce.length = 16 := by rw [hnonce]; simp [urandom]
  have hfn : (flipBit nonce i b).length = 16 := by simp [flipBit, hn]
  refine ⟨decrypt_data_missingTag m _ nonce hk (by omega) (by omega),
    decrypt_data_missingTag m ct _ hk (by omega) (by omega),
    fun mp hmp => decrypt_data_missingTag mp ct nonce hmp (by omega) (by omega),
    fun res hok => ?_, by simp⟩
  rw [decrypt_data_missingTag m _ nonce hk (by omega) (by omega)] at hok
  cases hok

/-- C2 witness: flipping bit 0 of byte 0 of the example ciphertext still
yields the missing-tag error, not an authentication failure. -/
theorem tamper_never_authenticationFailure_w :
    exampleManager.decrypt_data (flipBit exampleCiphertext 0 0) (urandom 16 zeroEnt) =
      .error .missingTag :=
  (tamper_never_authenticationFailure (List.replicate 32 0) examplePlaintext zeroEnt zeroEnt
    exampleManager exampleCiphertext (urandom 16 zeroEnt) 0 0 rfl gcm_example_vector).1

/-- C3: constructing the security context succeeds exactly on 32-byte keys;
any other length fails with the key-length ValueError, and the failure is
decided before any cryptographic operation — it does not depend on the
entropy source at all. -/
theorem init_key_length (k : List Byte) (ent : Nat → Byte) :
    ((∃ m, SecurityManager.init k ent = .ok m) ↔ k.length = 32) ∧
      (k.length ≠ 32 → ∀ entp, SecurityManager.init k ent = SecurityManager.init k entp ∧
        SecurityManager.init k ent = .error .keyLength) := by
  unfold SecurityManager.init AES_KEY_SIZE
  refine ⟨⟨?_, ?_⟩, ?_⟩
  · rintro ⟨m, hm⟩
    by_contra h
    simp [h] at hm
  · intro h
    refine ⟨⟨k, urandom HMAC_KEY_SIZE ent⟩, ?_⟩
    simp [h]
  · intro h entp
    simp [h]

/-- C3 witness: a 31-byte key is rejected with the key-length error; a
32-byte key is accepted. -/
theorem init_key_length_w :
    SecurityManager.init (List.replicate 31 (0 : Byte)) zeroEnt = .error .keyLength ∧
      (∃ m, SecurityManager.init (List.replicate 32 (0 : Byte)) zeroEnt = .ok m) :=
  ⟨((init_key_length (List.replicate 31 0) zeroEnt).2 (by simp) zeroEnt).2,
   (init_key_length (List.replicate 32 0) zeroEnt).1.mpr (by simp)⟩

/-- Pigeonhole: a 32-byte digest cannot separate all byte strings, so HMAC
under any fixed key has (infeasibly findable) collisions. -/
theorem hmac_collision (key : List Byte) :
    ∃ d dp : List Byte, d ≠ dp ∧ hmacSha256 key d = hmacSha256 key dp := by
  obtain ⟨d, dp, hne, heq⟩ :=
    @Finite.exists_ne_map_eq_of_infinite (List Byte) (Mathlib.Vector Byte 32) _ _
      (fun d => ⟨hmacSha256 key d, hmacSha256_length _ d⟩)
  exact ⟨d, dp, hne, congrArg Mathlib.Vector.toList heq⟩

/-- C4 (amended): `verify_tag(d, generate_tag(d))` is always true, and
`verify_tag(dp, generate_tag(d))` is true exactly when the two HMAC tags
coincide. Distinct messages with coinciding tags necessarily exist — a
32-byte tag cannot separate all byte strings — so the claim's unconditional
"false for every dp ≠ d" cannot hold, although no collision is feasibly
constructible. -/
theorem mac_correctness (m : SecurityManager) :
    (∀ d : List Byte, m.verify_hmac d (m.generate_hmac d) = true) ∧
      (∀ d dp : List Byte, m.verify_hmac dp (m.generate_hmac d) = true ↔
        m.generate_hmac dp = m.generate_hmac d) ∧
      ∃ d dp : List Byte, d ≠ dp ∧ m.generate_hmac d = m.generate_hmac dp :=
  ⟨fun d => by simp [SecurityManager.verify_hmac, SecurityManager.generate_hmac],
    fun d dp => by simp [SecurityManager.verify_hmac, SecurityManager.generate_hmac],
    hmac_collision m.hmac_key⟩

/-- C4 counterexample: the second half of the claim, taken universally, is
false — by counting there exist two distinct messages whose tags under the
example context coincide, and on them `verify_tag(dp, generate_tag(d))`
returns true, not false. -/
theorem mac_not_injective :
    ¬ (∀ d dp : List Byte, d ≠ dp →
        exampleManager.verify_hmac dp (exampleManager.generate_hmac d) = false) := by
  intro hall
  obtain ⟨d, dp, hne, heq⟩ := hmac_collision exampleManager.hmac_key
  have h2 := hall d dp hne
  simp only [SecurityManager.verify_hmac, SecurityManager.generate_hmac,
    decide_eq_false_iff_not] at h2
  exact h2 heq.symm

/-- C8 counterexample: with an (adversarially unlucky) all-zero entropy pool
and the all-zero 32-byte caller key, the freshly drawn MAC key is
byte-for-byte equal to the caller-supplied symmetric key — "never equal to
the caller-supplied key" does not hold universally. -/
theorem hmac_key_can_equal_secret :
    SecurityManager.init (List.replicate 32 (0 : Byte)) zeroEnt = .ok exampleManager ∧
      exampleManager.hmac_key = exampleManager.secret_key :=
  ⟨rfl, by decide⟩

/-- C8 (amended): the MAC key is drawn exactly once, at construction, from
the OS entropy stream: it equals `urandom 32 ent`, is 32 bytes long, is a
function of the entropy alone (so never derived from the supplied symmetric
key, though it can coincide with it by chance), and the encryption and
decryption operations neither read nor return it. -/
theorem hmac_key_lifecycle (k : List Byte) (ent : Nat → Byte) (m : SecurityManager)
    (h : SecurityManager.init k ent = .ok m) :
    m.hmac_key = urandom 32 ent ∧ m.hmac_key.length = 32 ∧
      (∀ kp mp, SecurityManager.init kp ent = .ok mp → mp.hmac_key = m.hmac_key) ∧
      (∀ pt entp hk, SecurityManager.encrypt_data ⟨m.secret_key, hk⟩ pt entp =
        m.encrypt_data pt entp) ∧
      (∀ ct nn hk, SecurityManager.decrypt_data ⟨m.secret_key, hk⟩ ct nn =
        m.decrypt_data ct nn) := by
  obtain ⟨hmk, hklen⟩ := init_inv k ent m h
  subst hmk
  refine ⟨rfl, by simp [urandom], ?_, fun pt entp hk => rfl, fun ct nn hk => rfl⟩
  intro kp mp hp
  exact (init_inv kp ent mp hp).1 ▸ rfl

/-- C8 witness: the concrete zero-key, zero-entropy context. -/
theorem hmac_key_lifecycle_w :
    exampleManager.hmac_key = urandom 32 zeroEnt ∧ exampleManager.hmac_key.length = 32 :=
  ⟨(hmac_key_lifecycle (List.replicate 32 0) zeroEnt exampleManager rfl).1,
   (hmac_key_lifecycle (List.replicate 32 0) zeroEnt exampleManager rfl).2.1⟩

/-- C9: `encrypt_data` returns the fresh 16-byte nonce drawn from the OS and
a ciphertext of exactly the plaintext's length — the GCM authentication tag
is not part of the result anywhere, and the empty plaintext yields the empty
ciphertext. -/
theorem encrypt_data_shape (k pt : List Byte) (ent entN : Nat → Byte) (m : SecurityManager)
    (hm : SecurityManager.init k ent = .ok m) :
    ∃ ct, m.encrypt_data pt entN = .ok (ct, urandom 16 entN) ∧
      ct.length = pt.length ∧ (urandom 16 entN).length = 16 ∧ (pt = [] → ct = []) := by
  obtain ⟨hmk, hklen⟩ := init_inv k ent m hm
  have hk : m.secret_key.length = 32 := by rw [hmk]; exact hklen
  refine ⟨gcmCtrEncrypt m.secret_key (urandom 16 entN) pt, ?_, gcmCtrEncrypt_length _ _ _,
    by simp [urandom], ?_⟩
  · unfold SecurityManager.encrypt_data
    rw [if_pos (by simp [hk])]
    rfl
  · intro hpt
    subst hpt
    rfl

/-- C9 witness: the concrete example run returns a 25-byte ciphertext for the
25-byte plaintext together with the 16-byte nonce. -/
theorem encrypt_data_shape_w :
    ∃ ct, exampleManager.encrypt_data examplePlaintext zeroEnt = .ok (ct, urandom 16 zeroEnt) ∧
      ct.length = examplePlaintext.length ∧ (urandom 16 zeroEnt).length = 16 ∧
      (examplePlaintext = [] → ct = []) :=
  encrypt_data_shape (List.replicate 32 0) examplePlaintext zeroEnt zeroEnt exampleManager rfl

/-- C10: `verify_hmac` is total: it returns a plain boolean — true exactly on
the recomputed 32-byte tag, false on every other candidate, in particular on
any candidate tag whose length is not 32 bytes. -/
theorem verify_hmac_total (m : SecurityManager) (d t : List Byte) :
    (m.verify_hmac d t = true ↔ t = m.generate_hmac d) ∧
      (t.length ≠ 32 → m.verify_hmac d t = false) := by
  constructor
  · simp [SecurityManager.verify_hmac, SecurityManager.generate_hmac, eq_comm]
  · intro h
    simp only [SecurityManager.verify_hmac, decide_eq_false_iff_not]
    intro heq
    exact h (heq ▸ hmacSha256_length m.hmac_key d)

/-- C10 witness: a 1-byte candidate tag is rejected with false. -/
theorem verify_hmac_total_w : exampleManager.verify_hmac [] [(0 : Byte)] = false :=
  (verify_hmac_total exampleManager [] [0]).2 (by simp)

/-- The fuel-driven exponentiation computes `a ^ k mod n`. -/
theorem powModAux_correct : ∀ fuel a k n : Nat, 0 < n → k ≤ fuel →
    powModAux fuel a k n = a ^ k % n := by
  intro fuel
  induction fuel with
  | zero =>
    intro a k n hn hk
    have hk0 : k = 0 := by omega
    subst hk0
    simp [powModAux]
  | succ fuel ih =>
    intro a k n hn hk
    by_cases hk0 : k = 0
    · subst hk0
      simp [powModAux]
    · have hrec := ih (a * a % n) (k / 2) n hn (by omega)
      have hx : (a * a % n) ^ (k / 2) % n = a ^ (2 * (k / 2)) % n := by
        rw [← Nat.pow_mod, ← pow_two, ← pow_mul]
      by_cases hodd : k % 2 = 1
      · have hstep : powModAux (fuel + 1) a k n =
            powModAux fuel (a * a % n) (k / 2) n * (a % n) % n := by
          simp [powModAux, hk0, hodd]
        rw [hstep, hrec, hx, ← Nat.mul_mod, ← pow_succ]
        congr 2
        omega
      · have hstep : powModAux (fuel + 1) a k n = powModAux fuel (a * a % n) (k / 2) n := by
          simp [powModAux, hk0, hodd]
        rw [hstep, hrec, hx]
        congr 2
        omega

/-- `powMod` computes modular exponentiation. -/
theorem powMod_correct (a k n : Nat) (hn : 0 < n) : powMod a k n = a ^ k % n :=
  powModAux_correct k a k n hn (Nat.le_refl k)

/-- I2OSP emits the requested number of bytes. -/
theorem natToOs_length (x len : Nat) : (natToOs x len).length = len := by
  induction len generalizing x with
  | zero => rfl
  | succ len ih => simp [natToOs, ih]

/-- OS2IP is bounded by the byte length. -/
theorem osToNat_lt (l : List Byte) : osToNat l < 256 ^ l.length := by
  induction l with
  | nil => simp [osToNat]
  | cons b rest ih =>
    simp only [osToNat, List.length_cons]
    have h2 : b.val + 1 ≤ 256 := b.isLt
    calc b.val * 256 ^ rest.length + osToNat rest
        < (b.val + 1) * 256 ^ rest.length := by rw [add_one_mul]; omega
      _ ≤ 256 * 256 ^ rest.length := Nat.mul_le_mul_right _ h2
      _ = 256 ^ (rest.length + 1) := by rw [pow_succ, Nat.mul_comm]

/-- OS2IP of I2OSP recovers the integer. -/
theorem osToNat_natToOs (x len : Nat) (h : x < 256 ^ len) :
    osToNat (natToOs x len) = x := by
  induction len generalizing x with
  | zero =>
    simp only [natToOs, osToNat]
    omega
  | succ len ih =>
    simp only [natToOs, osToNat, natToOs_length, natByte]
    rw [ih (x % 256 ^ len) (Nat.mod_lt _ (pow_pos (by norm_num) len))]
    have hd : x / 256 ^ len < 256 := by
      rw [Nat.div_lt_iff_lt_mul (pow_pos (by norm_num) len)]
      calc x < 256 ^ (len + 1) := h
        _ = 256 * 256 ^ len := by rw [pow_succ, Nat.mul_comm]
    rw [Nat.mod_eq_of_lt hd]
    exact Nat.div_add_mod' x (256 ^ len)

/-- I2OSP of OS2IP recovers the byte string (at its own length). -/
theorem natToOs_osToNat (l : List Byte) : natToOs (osToNat l) l.length = l := by
  induction l with
  | nil => rfl
  | cons b rest ih =>
    simp only [osToNat, List.length_cons, natToOs]
    have hrest := osToNat_lt rest
    have hdiv : (b.val * 256 ^ rest.length + osToNat rest) / 256 ^ rest.length = b.val := by
      rw [Nat.add_comm, Nat.add_mul_div_right _ _ (pow_pos (by norm_num) rest.length),
        Nat.div_eq_of_lt hrest, Nat.zero_add]
    have hmod : (b.val * 256 ^ rest.length + osToNat rest) % 256 ^ rest.length =
        osToNat rest := by
      rw [Nat.add_comm, Nat.add_mul_mod_self_right, Nat.mod_eq_of_lt hrest]
    rw [hdiv, hmod, ih]
    congr 1
    exact Fin.ext (Nat.mod_eq_of_lt b.isLt)

/-- OS2IP splits over append. -/
theorem osToNat_append (l1 l2 : List Byte) :
    osToNat (l1 ++ l2) = osToNat l1 * 256 ^ l2.length + osToNat l2 := by
  induction l1 with
  | nil => simp [osToNat]
  | cons b rest ih =>
    simp only [List.cons_append, List.append_eq, osToNat, ih, List.length_append, pow_add]
    ring

/-- Every integer fits in `byteLen` bytes. -/
theorem lt_pow_byteLen (n : Nat) : n < 256 ^ byteLen n := by
  unfold byteLen
  split
  · next h =>
    subst h
    norm_num
  · next h =>
    calc n < 2 ^ (Nat.log2 n + 1) := Nat.lt_log2_self
      _ ≤ 2 ^ (8 * (Nat.log2 n / 8 + 1)) := by
        apply Nat.pow_le_pow_right (by norm_num)
        omega
      _ = 256 ^ (Nat.log2 n / 8 + 1) := by
        rw [pow_mul]
        norm_num

/-- MGF1 emits exactly the requested mask length. -/
theorem mgf1_length (seed : List Byte) (len : Nat) : (mgf1 seed len).length = len := by
  unfold mgf1
  rw [List.length_take, flatten_map_const_length _ 32 (fun c => sha256_length _)]
  simp only [List.length_range]
  have := Nat.div_add_mod (len + 31) 32
  have := Nat.mod_lt (len + 31) (y := 32) (by norm_num)
  omega

/-- `load_pem_public_key` inverts `public_bytes` on public keys. -/
theorem pubPemParse_encode (n e : Nat) (he : e < 4294967296) :
    pubPemParse (pubPemEncode n e) = some (n, e) := by
  unfold pubPemEncode pubPemParse
  have hlen4 : (natToOs e 4).length = 4 := natToOs_length e 4
  have htake : (80 :: 85 :: 66 :: (natToOs e 4 ++ natToOs n (byteLen n)) : List Byte).take 3 =
      [80, 85, 66] := rfl
  have hdrop7 : (80 :: 85 :: 66 :: (natToOs e 4 ++ natToOs n (byteLen n)) : List Byte).drop 7 =
      (natToOs e 4 ++ natToOs n (byteLen n)).drop 4 := rfl
  have hdrop3 : (80 :: 85 :: 66 :: (natToOs e 4 ++ natToOs n (byteLen n)) : List Byte).drop 3 =
      natToOs e 4 ++ natToOs n (byteLen n) := rfl
  rw [if_pos]
  · rw [hdrop7, hdrop3, List.drop_left' hlen4, List.take_left' hlen4,
      osToNat_natToOs n _ (lt_pow_byteLen n), osToNat_natToOs e 4 (by norm_num; omega)]
  · constructor
    · exact htake
    · simp [hlen4, natToOs_length]

/-- `load_pem_private_key` inverts `private_bytes` on private keys whose
exponent fits beside the modulus. -/
theorem privPemParse_encode (n e d : Nat) (he : e < 4294967296) (hd : d < 256 ^ byteLen n) :
    privPemParse (privPemEncode n e d) = some (n, e, d) := by
  unfold privPemEncode privPemParse
  have hlen4 : (natToOs e 4).length = 4 := natToOs_length e 4
  have hlenN : (natToOs n (byteLen n)).length = byteLen n := natToOs_length _ _
  have hlenD : (natToOs d (byteLen n)).length = byteLen n := natToOs_length _ _
  have hdrop7 : (80 :: 82 :: 86 ::
      (natToOs e 4 ++ (natToOs n (byteLen n) ++ natToOs d (byteLen n))) : List Byte).drop 7 =
      (natToOs e 4 ++ (natToOs n (byteLen n) ++ natToOs d (byteLen n))).drop 4 := rfl
  have hdrop3 : (80 :: 82 :: 86 ::
      (natToOs e 4 ++ (natToOs n (byteLen n) ++ natToOs d (byteLen n))) : List Byte).drop 3 =
      natToOs e 4 ++ (natToOs n (byteLen n) ++ natToOs d (byteLen n)) := rfl
  have hlen : (80 :: 82 :: 86 ::
      (natToOs e 4 ++ (natToOs n (byteLen n) ++ natToOs d (byteLen n))) : List Byte).length =
      7 + 2 * byteLen n := by
    simp [hlen4, hlenN, hlenD]
    omega
  rw [if_pos]
  · rw [hdrop7, hdrop3, List.drop_left' hlen4, List.take_left' hlen4, hlen]
    have hhalf : (7 + 2 * byteLen n - 7) / 2 = byteLen n := by omega
    rw [hhalf, List.take_left' hlenN, List.drop_left' hlenN,
      osToNat_natToOs n _ (lt_pow_byteLen n), osToNat_natToOs d _ hd,
      osToNat_natToOs e 4 (by norm_num; omega)]
  · refine ⟨rfl, ?_⟩
    rw [hlen]
    omega

/-- Fermat–Euler step of RSA correctness, one prime at a time: when
e·d ≡ 1 modulo a multiple of p − 1, exponentiation by e·d fixes every
residue mod p. -/
theorem rsa_modEq_prime (p L e d m : Nat) (hp : Nat.Prime p) (hL : (p - 1) ∣ L)
    (hed : e * d ≡ 1 [MOD L]) (hed1 : 1 ≤ e * d) : m ^ (e * d) ≡ m [MOD p] := by
  obtain ⟨t, ht⟩ : ∃ t, e * d = 1 + (p - 1) * t := by
    have hdvd : L ∣ e * d - 1 := (Nat.modEq_iff_dvd' hed1).mp hed.symm
    obtain ⟨s, hs⟩ := hL.trans hdvd
    exact ⟨s, by omega⟩
  rw [ht]
  by_cases hdvd : p ∣ m
  · have h1 : m ^ (1 + (p - 1) * t) ≡ 0 [MOD p] :=
      Nat.modEq_zero_iff_dvd.mpr (dvd_pow hdvd (by omega))
    have h2 : m ≡ 0 [MOD p] := Nat.modEq_zero_iff_dvd.mpr hdvd
    exact h1.trans h2.symm
  · have hco : m.Coprime p := Nat.coprime_comm.mp ((Nat.Prime.coprime_iff_not_dvd hp).mpr hdvd)
    have he : m ^ (p - 1) ≡ 1 [MOD p] := by
      have h := Nat.ModEq.pow_totient hco
      rwa [Nat.totient_prime hp] at h
    calc m ^ (1 + (p - 1) * t) = m * (m ^ (p - 1)) ^ t := by
          rw [pow_add, pow_mul, pow_one]
      _ ≡ m * 1 ^ t [MOD p] := Nat.ModEq.mul_left m (he.pow t)
      _ = m := by rw [one_pow, Nat.mul_one]

/-- RSA correctness: signing then verifying exponentiation is the identity on
residues below n = p·q, for distinct primes and d inverse to e mod λ(n). -/
theorem rsa_pow_roundtrip (p q e d m : Nat) (hp : Nat.Prime p) (hq : Nat.Prime q)
    (hpq : p ≠ q) (hed : e * d ≡ 1 [MOD Nat.lcm (p - 1) (q - 1)]) (hed1 : 1 ≤ e * d)
    (hm : m < p * q) : (m ^ d % (p * q)) ^ e % (p * q) = m := by
  have hco : Nat.Coprime p q := (Nat.coprime_primes hp hq).mpr hpq
  have h1 : (m ^ d % (p * q)) ^ e % (p * q) = m ^ (e * d) % (p * q) := by
    rw [← Nat.pow_mod, ← pow_mul, Nat.mul_comm d e]
  rw [h1]
  have h2 : m ^ (e * d) ≡ m [MOD p * q] := by
    rw [← Nat.modEq_and_modEq_iff_modEq_mul hco]
    exact ⟨rsa_modEq_prime p _ e d m hp (Nat.dvd_lcm_left _ _) hed hed1,
      rsa_modEq_prime q _ e d m hq (Nat.dvd_lcm_right _ _) hed hed1⟩
  rw [Nat.ModEq] at h2
  rw [h2, Nat.mod_eq_of_lt hm]

/-- The private exponent computed by the key generator from the extended
Euclidean algorithm is a modular inverse of e mod λ. -/
theorem gcdA_inverse (e lam : Nat) (hco : Nat.Coprime e lam) (hlam : 0 < lam) :
    e * (Nat.gcdA e lam % (lam : Int)).toNat ≡ 1 [MOD lam] := by
  have hnz : (lam : Int) ≠ 0 := by exact_mod_cast hlam.ne.symm
  have hbez : (1 : Int) = e * Nat.gcdA e lam + lam * Nat.gcdB e lam := by
    have h := Nat.gcd_eq_gcd_ab e lam
    have hg : Nat.gcd e lam = 1 := hco
    rw [hg] at h
    exact_mod_cast h
  have hd : ((Nat.gcdA e lam % (lam : Int)).toNat : Int) = Nat.gcdA e lam % (lam : Int) :=
    Int.toNat_of_nonneg (Int.emod_nonneg _ hnz)
  rw [Nat.modEq_iff_dvd]
  push_cast
  rw [hd]
  have h1 : (1 : Int) - e * (Nat.gcdA e lam % (lam : Int)) =
      lam * Nat.gcdB e lam + e * (Nat.gcdA e lam - Nat.gcdA e lam % (lam : Int)) := by
    rw [hbez]
    ring
  rw [h1]
  apply dvd_add
  · exact dvd_mul_right _ _
  · apply Dvd.dvd.mul_left
    have h2 : Nat.gcdA e lam - Nat.gcdA e lam % (lam : Int) =
        lam * (Nat.gcdA e lam / (lam : Int)) := by
      have h3 := Int.ediv_add_emod (Nat.gcdA e lam) (lam : Int)
      omega
    rw [h2]
    exact dvd_mul_right _ _

/-- Bridge between `ZMod` powers and the computable `powMod` test. -/
theorem zmod_pow_one_iff (p a k : Nat) (hp : 2 ≤ p) :
    ((a : ZMod p) ^ k = 1) ↔ powMod a k p = 1 := by
  rw [powMod_correct a k p (by omega)]
  have h1 : ((a : ZMod p)) ^ k = ((a ^ k % p : Nat) : ZMod p) := by
    rw [ZMod.natCast_mod]
    push_cast
    ring
  have h2 : (1 : ZMod p) = ((1 : Nat) : ZMod p) := by norm_cast
  rw [h1, h2, ZMod.natCast_eq_natCast_iff']
  rw [Nat.mod_mod_of_dvd _ dvd_rfl, Nat.mod_eq_of_lt (show 1 < p by omega)]

/-- A Lucas (Pratt) primality certificate for a modulus whose predecessor is
2-and-3-smooth, checkable by `powMod` computation. -/
theorem prime_of_pow2_pow3 (p a x y : Nat) (h1 : 2 ≤ p) (hfact : p - 1 = 2 ^ x * 3 ^ y)
    (ha : powMod a (p - 1) p = 1)
    (h2 : powMod a ((p - 1) / 2) p ≠ 1)
    (h3 : powMod a ((p - 1) / 3) p ≠ 1) : p.Prime := by
  apply lucas_primality p (a : ZMod p)
  · exact (zmod_pow_one_iff p a (p - 1) h1).mpr ha
  · intro r hr hdvd
    have hr23 : r = 2 ∨ r = 3 := by
      rw [hfact] at hdvd
      rcases (Nat.Prime.dvd_mul hr).mp hdvd with h | h
      · exact Or.inl ((Nat.prime_dvd_prime_iff_eq hr Nat.prime_two).mp (hr.dvd_of_dvd_pow h))
      · exact Or.inr ((Nat.prime_dvd_prime_iff_eq hr Nat.prime_three).mp (hr.dvd_of_dvd_pow h))
    intro hcon
    rcases hr23 with h | h
    · subst h
      exact h2 ((zmod_pow_one_iff p a _ h1).mp hcon)
    · subst h
      exact h3 ((zmod_pow_one_iff p a _ h1).mp hcon)

set_option maxRecDepth 100000 in
/-- The concrete prime `rsaP`, certified by `powMod` computations. -/
theorem rsaP_prime : Nat.Prime rsaP :=
  prime_of_pow2_pow3 rsaP 43 61 45 (by norm_num [rsaP]) (by norm_num [rsaP])
    (by decide) (by decide) (by decide)

set_option maxRecDepth 100000 in
/-- The concrete prime `rsaQ`, certified by `powMod` computations. -/
theorem rsaQ_prime : Nat.Prime rsaQ :=
  prime_of_pow2_pow3 rsaQ 5 77 37 (by norm_num [rsaQ]) (by norm_num [rsaQ])
    (by decide) (by decide) (by decide)

/-- Clearing top bits does not change the length. -/
theorem maskClearTop_length (l : List Byte) (bits : Nat) :
    (maskClearTop l bits).length = l.length := by
  cases l <;> simp [maskClearTop]

/-- Value-level reading of `byteAnd`. -/
theorem byteAnd_val (a b : Byte) : (byteAnd a b).val = a.val &&& b.val := rfl

/-- Value-level reading of `byteXor`. -/
theorem byteXor_val (a b : Byte) : (byteXor a b).val = a.val ^^^ b.val := rfl

/-- Xor-ing the same mask twice is the identity. -/
theorem byteXor_cancel (a b : Byte) : byteXor (byteXor a b) b = a := by
  apply Fin.ext
  rw [byteXor_val, byteXor_val, Nat.xor_assoc, Nat.xor_self, Nat.xor_zero]

/-- Unmasking with the same stream recovers the data, elementwise. -/
theorem zipWith_byteXor_cancel : ∀ l m : List Byte, l.length ≤ m.length →
    List.zipWith byteXor (List.zipWith byteXor l m) m = l
  | [], _, _ => rfl
  | a :: l, b :: m, h => by
    simp only [List.zipWith_cons_cons, byteXor_cancel]
    rw [zipWith_byteXor_cancel l m (by simpa using h)]
  | a :: l, [], h => by simp at h

/-- The byte mask used to clear the leftmost bits of EMSA-PSS's maskedDB. -/
theorem shiftRight255 (b : Nat) (hb : b ≤ 7) : 255 >>> b = 2 ^ (8 - b) - 1 := by
  interval_cases b <;> rfl

/-- Masking, xoring, and re-masking with an odd mask fixes the separator
byte 0x01 of EMSA-PSS's DB. -/
theorem unmask_head (m t : Nat) (ht : t % 2 = 1) :
    ((((1 ^^^ m) &&& t) ^^^ m) &&& t) = 1 := by
  rw [Nat.and_xor_distrib_right, Nat.and_assoc, Nat.and_self,
    Nat.and_xor_distrib_right, Nat.xor_assoc, Nat.xor_self, Nat.xor_zero,
    Nat.one_and_eq_mod_two, ht]

/-- Structural form of EMSA-PSS-ENCODE at maximal salt length: the empty PS,
the separator byte masked and top-cleared, the masked salt, the hash, 0xbc. -/
theorem emsaPssEncode_eq (mHash salt : List Byte) (emBits : Nat)
    (hs : salt.length = (emBits + 7) / 8 - 34) (hbig : 34 ≤ (emBits + 7) / 8) :
    ∃ m0 : Byte, ∃ mrest : List Byte,
      mgf1 (sha256 (List.replicate 8 (0 : Byte) ++ mHash ++ salt)) ((emBits + 7) / 8 - 33) =
        m0 :: mrest ∧
      mrest.length = salt.length ∧
      emsaPssEncode mHash salt emBits =
        (byteAnd (byteXor 1 m0) (natByte (255 >>> (8 * ((emBits + 7) / 8) - emBits))) ::
          List.zipWith byteXor salt mrest) ++
          (sha256 (List.replicate 8 (0 : Byte) ++ mHash ++ salt) ++ [188]) := by
  have hmlen := mgf1_length (sha256 (List.replicate 8 (0 : Byte) ++ mHash ++ salt))
    ((emBits + 7) / 8 - 33)
  obtain ⟨m0, mrest, hmask⟩ : ∃ m0 mrest,
      mgf1 (sha256 (List.replicate 8 (0 : Byte) ++ mHash ++ salt)) ((emBits + 7) / 8 - 33) =
        m0 :: mrest := by
    cases hm : mgf1 (sha256 (List.replicate 8 (0 : Byte) ++ mHash ++ salt))
        ((emBits + 7) / 8 - 33) with
    | nil =>
      rw [hm] at hmlen
      simp at hmlen
      omega
    | cons m0 mrest => exact ⟨m0, mrest, rfl⟩
  have hmr : mrest.length = salt.length := by
    rw [hmask] at hmlen
    simp at hmlen
    omega
  refine ⟨m0, mrest, hmask, hmr, ?_⟩
  unfold emsaPssEncode
  dsimp only
  rw [show (emBits + 7) / 8 - salt.length - 34 = 0 by omega, List.replicate_zero,
    List.nil_append, hmask]
  simp only [List.cons_append, List.nil_append, List.zipWith_cons_cons, maskClearTop,
    List.append_assoc]

/-- The clearing mask is odd for any in-range bit count. -/
theorem shiftRight255_odd (b : Nat) (hb : b ≤ 7) : (255 >>> b) % 2 = 1 := by
  interval_cases b <;> rfl

/-- The clearing mask fits in a byte. -/
theorem shiftRight255_lt (b : Nat) : 255 >>> b < 256 := by
  rw [Nat.shiftRight_eq_div_pow]
  exact lt_of_le_of_lt (Nat.div_le_self _ _) (by norm_num)

/-- The value of the clearing-mask byte. -/
theorem natByte_shift_val (b : Nat) : (natByte (255 >>> b)).val = 255 >>> b := by
  simp only [natByte]
  exact Nat.mod_eq_of_lt (shiftRight255_lt b)

/-- The integer value of an EMSA-PSS encoded message is below 2^emBits:
its leftmost 8·emLen − emBits bits are cleared. -/
theorem emsaPssEncode_lt (mHash salt : List Byte) (emBits : Nat)
    (hs : salt.length = (emBits + 7) / 8 - 34) (hbig : 34 ≤ (emBits + 7) / 8) :
    osToNat (emsaPssEncode mHash salt emBits) < 2 ^ emBits := by
  obtain ⟨m0, mrest, hmask, hmr, hem⟩ := emsaPssEncode_eq mHash salt emBits hs hbig
  set emLen := (emBits + 7) / 8 with hEm
  set bits := 8 * emLen - emBits with hbitsdef
  have hb7 : bits ≤ 7 := by omega
  set c0 : Byte := byteAnd (byteXor 1 m0) (natByte (255 >>> bits)) with hc0
  set T : List Byte := List.zipWith byteXor salt mrest ++
    (sha256 (List.replicate 8 (0 : Byte) ++ mHash ++ salt) ++ [188]) with hT
  have hTlen : T.length = salt.length + 33 := by
    rw [hT]
    simp [List.length_zipWith, sha256_length, hmr]
  have hc0v : c0.val ≤ 2 ^ (8 - bits) - 1 := by
    rw [hc0, byteAnd_val]
    calc (byteXor 1 m0).val &&& (natByte (255 >>> bits)).val
        ≤ (natByte (255 >>> bits)).val := Nat.and_le_right
      _ = 255 >>> bits := natByte_shift_val bits
      _ = 2 ^ (8 - bits) - 1 := shiftRight255 bits hb7
  have hrest : osToNat T < 256 ^ (salt.length + 33) := by
    have h := osToNat_lt T
    rwa [hTlen] at h
  rw [hem]
  simp only [List.cons_append]
  rw [show (c0 :: (List.zipWith byteXor salt mrest ++
      (sha256 (List.replicate 8 (0 : Byte) ++ mHash ++ salt) ++ [188]))) = c0 :: T from rfl]
  simp only [osToNat]
  rw [hTlen]
  have hpos : 0 < 2 ^ (8 - bits) := pow_pos (by norm_num) _
  calc c0.val * 256 ^ (salt.length + 33) + osToNat T
      < (c0.val + 1) * 256 ^ (salt.length + 33) := by rw [add_one_mul]; omega
    _ ≤ 2 ^ (8 - bits) * 256 ^ (salt.length + 33) := Nat.mul_le_mul_right _ (by omega)
    _ = 2 ^ emBits := by
        rw [show (256 : Nat) = 2 ^ 8 by norm_num, ← pow_mul, ← pow_add]
        congr 1
        omega

/-- EMSA-PSS-VERIFY accepts every EMSA-PSS-ENCODE output built with the
maximal salt length. -/
theorem emsaPssVerify_encode (mHash salt : List Byte) (emBits : Nat)
    (hs : salt.length = (emBits + 7) / 8 - 34) (hbig : 34 ≤ (emBits + 7) / 8) :
    emsaPssVerify mHash (emsaPssEncode mHash salt emBits) emBits salt.length = true := by
  obtain ⟨m0, mrest, hmask, hmr, hem⟩ := emsaPssEncode_eq mHash salt emBits hs hbig
  set h := sha256 (List.replicate 8 (0 : Byte) ++ mHash ++ salt) with hh
  set emLen := (emBits + 7) / 8 with hEm
  set bits := 8 * emLen - emBits with hbitsdef
  have hb7 : bits ≤ 7 := by omega
  set mb : Byte := natByte (255 >>> bits) with hmb
  set c0 : Byte := byteAnd (byteXor 1 m0) mb with hc0
  set zips : List Byte := List.zipWith byteXor salt mrest with hzips
  have hhlen : h.length = 32 := sha256_length _
  have hzipslen : zips.length = salt.length := by
    rw [hzips, List.length_zipWith, hmr]
    omega
  have hmc_len : (c0 :: zips).length = emLen - 33 := by
    simp [hzipslen]
    omega
  have htake : ((c0 :: zips) ++ (h ++ [188])).take (emLen - 33) = c0 :: zips :=
    List.take_left' hmc_len
  have hdrop : ((c0 :: zips) ++ (h ++ [188])).drop (emLen - 33) = h ++ [188] :=
    List.drop_left' hmc_len
  have htake32 : (h ++ [188] : List Byte).take 32 = h := List.take_left' hhlen
  have hemlen : ((c0 :: zips) ++ (h ++ [188])).length = emLen := by
    simp [hzipslen, hhlen]
    omega
  have hgetD : ((c0 :: zips) ++ (h ++ [188])).getD (emLen - 1) 0 = (188 : Byte) := by
    rw [List.getD_append_right _ _ _ _ (by omega)]
    rw [List.getD_append_right _ _ _ _ (by rw [hhlen]; omega)]
    rw [hmc_len, hhlen]
    rw [show emLen - 1 - (emLen - 33) - 32 = 0 from by omega]
    rfl
  have hheadbits : ((c0 :: zips).getD 0 0).val >>> (8 - bits) = 0 := by
    rw [List.getD_cons_zero, hc0, byteAnd_val, Nat.shiftRight_eq_div_pow]
    apply Nat.div_eq_of_lt
    calc (byteXor 1 m0).val &&& mb.val ≤ mb.val := Nat.and_le_right
      _ = 255 >>> bits := natByte_shift_val bits
      _ = 2 ^ (8 - bits) - 1 := shiftRight255 bits hb7
      _ < 2 ^ (8 - bits) := by
          have := pow_pos (show 0 < 2 by norm_num) (8 - bits)
          omega
  have hdb : maskClearTop (List.zipWith byteXor (c0 :: zips) (mgf1 h (emLen - 33))) bits =
      (1 : Byte) :: salt := by
    rw [show mgf1 h (emLen - 33) = m0 :: mrest from hmask]
    simp only [List.zipWith_cons_cons, maskClearTop]
    congr 1
    · apply Fin.ext
      rw [byteAnd_val, byteXor_val, hc0, byteAnd_val, byteXor_val]
      have h1v : ((1 : Byte)).val = 1 := rfl
      rw [h1v, ← hmb]
      have htodd : mb.val % 2 = 1 := by
        rw [hmb, natByte_shift_val]
        exact shiftRight255_odd bits hb7
      exact unmask_head m0.val mb.val htodd
    · rw [hzips]
      exact zipWith_byteXor_cancel salt mrest (by omega)
  rw [hem]
  unfold emsaPssVerify
  dsimp only
  rw [← hEm, ← hbitsdef, htake, hdrop, htake32, hdb, hemlen, hgetD, hheadbits]
  have hle : salt.length + 34 ≤ emLen := by omega
  rw [show emLen - salt.length - 34 = 0 from by omega,
    show emLen - salt.length - 33 = 1 from by omega]
  simp [hle, hh]

/-- EMSA-PSS-ENCODE emits exactly emLen bytes. -/
theorem emsaPssEncode_length (mHash salt : List Byte) (emBits : Nat)
    (hs : salt.length = (emBits + 7) / 8 - 34) (hbig : 34 ≤ (emBits + 7) / 8) :
    (emsaPssEncode mHash salt emBits).length = (emBits + 7) / 8 := by
  obtain ⟨m0, mrest, hmask, hmr, hem⟩ := emsaPssEncode_eq mHash salt emBits hs hbig
  rw [hem]
  simp [List.length_zipWith, sha256_length, hmr]
  omega

/-- RSASSA-PSS round trip for one key: verification accepts everything the
signer emits, provided exponentiation by d then e fixes residues mod n
(which `rsa_pow_roundtrip` supplies for a real RSA key). -/
theorem rsaPssVerify_sign (n e d : Nat) (data salt : List Byte)
    (hn : 2 ^ 265 ≤ n) (hsalt : salt.length = pssSaltLen n)
    (hrsa : ∀ m : Nat, m < n → (m ^ d % n) ^ e % n = m) :
    rsaPssVerify n e data (rsaPssSign n d data salt) = true := by
  have hn0 : 0 < n := lt_of_lt_of_le (pow_pos (by norm_num) 265) hn
  have hlog : 265 ≤ Nat.log2 n := (Nat.le_log2 (by omega)).mpr hn
  have hemBits : modBits n - 1 = Nat.log2 n := by unfold modBits; omega
  have hsalt' : salt.length = (modBits n - 1 + 7) / 8 - 34 := by
    rw [hsalt]; rfl
  have hbig' : 34 ≤ (modBits n - 1 + 7) / 8 := by
    rw [hemBits]; omega
  set mHash := sha256 data with hmH
  set em := emsaPssEncode mHash salt (modBits n - 1) with hemdef
  have hm_lt : osToNat em < 2 ^ Nat.log2 n := by
    rw [hemdef, ← hemBits]
    exact emsaPssEncode_lt mHash salt _ hsalt' hbig'
  have hm_lt_n : osToNat em < n := lt_of_lt_of_le hm_lt (Nat.log2_self_le (by omega))
  set s := powMod (osToNat em) d n with hsdef
  have hs_eq : s = (osToNat em) ^ d % n := powMod_correct _ _ _ hn0
  have hs_lt : s < n := by rw [hs_eq]; exact Nat.mod_lt _ hn0
  have hs_lt_pow : s < 256 ^ sigLen n := by
    calc s < n := hs_lt
      _ < 2 ^ (Nat.log2 n + 1) := Nat.lt_log2_self
      _ ≤ 256 ^ sigLen n := by
          rw [show (256 : Nat) = 2 ^ 8 by norm_num, ← pow_mul]
          apply Nat.pow_le_pow_right (by norm_num)
          unfold sigLen modBits
          omega
  have hosig : osToNat (natToOs s (sigLen n)) = s := osToNat_natToOs _ _ hs_lt_pow
  have hsig_len : (natToOs s (sigLen n)).length = sigLen n := natToOs_length _ _
  have hem_len : em.length = emLenOf n := by
    rw [hemdef]
    exact emsaPssEncode_length mHash salt _ hsalt' hbig'
  have hpow : powMod s e n = osToNat em := by
    rw [powMod_correct _ _ _ hn0, hs_eq]
    exact hrsa (osToNat em) hm_lt_n
  have hback : natToOs (powMod s e n) (emLenOf n) = em := by
    rw [hpow, ← hem_len]
    exact natToOs_osToNat em
  have hverify : emsaPssVerify mHash em (modBits n - 1) (pssSaltLen n) = true := by
    rw [← hsalt, hemdef]
    exact emsaPssVerify_encode mHash salt _ hsalt' hbig'
  unfold rsaPssVerify rsaPssSign
  rw [← hmH, ← hemdef, ← hsdef, hosig, hsig_len, hback, hverify]
  simp [hs_lt]

/-- Full key-pair round trip: for any prime pair meeting the generator's
guarantees, `sign_data` under the generated private PEM succeeds, and
`verify_signature` under the generated public PEM accepts the signature, for
every message and every salt draw. -/
theorem keypair_sign_verify (p q : Nat) (data : List Byte) (ent : Nat → Byte)
    (hp : Nat.Prime p) (hq : Nat.Prime q) (hpq : p ≠ q)
    (hco : Nat.Coprime 65537 (Nat.lcm (p - 1) (q - 1)))
    (hsize : 2 ^ 265 ≤ p * q) :
    ∃ sig, SecurityManager.sign_data (SecurityManager.generate_rsa_keypair p q).1 data ent =
        .ok sig ∧
      SecurityManager.verify_signature (SecurityManager.generate_rsa_keypair p q).2 data sig =
        .ok true := by
  set n := p * q with hn
  set lam := Nat.lcm (p - 1) (q - 1) with hlam
  set d := (Nat.gcdA 65537 lam % (lam : Int)).toNat with hd
  have hp2 := hp.two_le
  have hq2 := hq.two_le
  have hn0 : 0 < n := Nat.mul_pos hp.pos hq.pos
  have hlam0 : 0 < lam := Nat.lcm_pos (by omega) (by omega)
  have hlam2 : 2 ≤ lam := by
    have hone : 2 ≤ p - 1 ∨ 2 ≤ q - 1 := by
      by_contra hcon
      push_neg at hcon
      have : p = 2 ∧ q = 2 := by omega
      exact hpq (this.1.trans this.2.symm)
    rcases hone with h1 | h1
    · exact le_trans h1 (Nat.le_of_dvd hlam0 (Nat.dvd_lcm_left _ _))
    · exact le_trans h1 (Nat.le_of_dvd hlam0 (Nat.dvd_lcm_right _ _))
  have hed : 65537 * d ≡ 1 [MOD lam] := gcdA_inverse 65537 lam hco hlam0
  have hd_lt : d < lam := by
    rw [hd]
    have h1 := Int.emod_lt_of_pos (Nat.gcdA 65537 lam)
      (show (0 : Int) < lam by exact_mod_cast hlam0)
    have h2 := Int.emod_nonneg (Nat.gcdA 65537 lam)
      (show (lam : Int) ≠ 0 by exact_mod_cast hlam0.ne.symm)
    omega
  have hlam_le_n : lam ≤ n := by
    have hdvd : lam ∣ (p - 1) * (q - 1) := Nat.lcm_dvd_mul _ _
    have hpos : 0 < (p - 1) * (q - 1) := Nat.mul_pos (by omega) (by omega)
    have h1 : lam ≤ (p - 1) * (q - 1) := Nat.le_of_dvd hpos hdvd
    have h2 : (p - 1) * (q - 1) ≤ p * q := Nat.mul_le_mul (by omega) (by omega)
    omega
  have hd_byte : d < 256 ^ byteLen n :=
    lt_of_lt_of_le (lt_of_lt_of_le hd_lt hlam_le_n) (le_of_lt (lt_pow_byteLen n))
  have hpriv : privPemParse (privPemEncode n 65537 d) = some (n, 65537, d) :=
    privPemParse_encode n 65537 d (by norm_num) hd_byte
  have hpub : pubPemParse (pubPemEncode n 65537) = some (n, 65537) :=
    pubPemParse_encode n 65537 (by norm_num)
  have hed1 : 1 ≤ 65537 * d := by
    rcases Nat.eq_zero_or_pos (65537 * d) with h0 | h1
    · exfalso
      have hmod := hed
      rw [h0, Nat.ModEq, Nat.zero_mod, Nat.mod_eq_of_lt (by omega : 1 < lam)] at hmod
      omega
    · exact h1
  refine ⟨rsaPssSign n d data (urandom (pssSaltLen n) ent), ?_, ?_⟩
  · unfold SecurityManager.sign_data
    rw [show (SecurityManager.generate_rsa_keypair p q).1 = privPemEncode n 65537 d from rfl,
      hpriv]
  · unfold SecurityManager.verify_signature
    rw [show (SecurityManager.generate_rsa_keypair p q).2 = pubPemEncode n 65537 from rfl,
      hpub]
    exact congrArg Except.ok (rsaPssVerify_sign n 65537 d data (urandom (pssSaltLen n) ent)
      hsize (by simp [urandom])
      (fun m hm => rsa_pow_roundtrip p q 65537 d m hp hq hpq hed hed1 hm))

/-- C5 (amended): for every key pair `generate_rsa_keypair` produces from
primes meeting the generator's guarantees (distinct primes, e coprime to
λ(n), modulus of at least 266 bits — a fortiori true of 2048-bit
generation) and every byte string d and salt draw, sign succeeds and
verify(pub, d, sign(priv, d)) returns true. Verifying with an unrelated,
independently generated key pair's public key is NOT universally false,
because independent randomized generations can draw the same primes. -/
theorem signature_roundtrip (p q : Nat) (data : List Byte) (ent : Nat → Byte)
    (hp : Nat.Prime p) (hq : Nat.Prime q) (hpq : p ≠ q)
    (hco : Nat.Coprime 65537 (Nat.lcm (p - 1) (q - 1)))
    (hsize : 2 ^ 265 ≤ p * q) :
    ∃ sig, SecurityManager.sign_data (SecurityManager.generate_rsa_keypair p q).1 data ent =
        .ok sig ∧
      SecurityManager.verify_signature (SecurityManager.generate_rsa_keypair p q).2 data sig =
        .ok true :=
  keypair_sign_verify p q data ent hp hq hpq hco hsize

set_option maxRecDepth 100000 in
/-- C5 witness: the concrete key pair built from `rsaP` and `rsaQ` signs the
empty message and verifies it. -/
theorem signature_roundtrip_w :
    ∃ sig, SecurityManager.sign_data
        (SecurityManager.generate_rsa_keypair rsaP rsaQ).1 [] zeroEnt = .ok sig ∧
      SecurityManager.verify_signature
        (SecurityManager.generate_rsa_keypair rsaP rsaQ).2 [] sig = .ok true :=
  signature_roundtrip rsaP rsaQ [] zeroEnt rsaP_prime rsaQ_prime (by decide) (by decide)
    (by decide)

set_option maxRecDepth 100000 in
/-- C5 counterexample: the claim's "unrelated, independently generated key
pair verifies to false" is not universally true. Generation is randomized:
two independent draws can produce the same primes, and then the second
("unrelated") public key verifies the first pair's signature successfully. -/
theorem unrelated_keypair_can_verify :
    ¬ (∀ p1 q1 p2 q2 : Nat, ∀ data sig : List Byte, ∀ ent : Nat → Byte,
        Nat.Prime p1 → Nat.Prime q1 → p1 ≠ q1 →
          Nat.Coprime 65537 (Nat.lcm (p1 - 1) (q1 - 1)) → 2 ^ 265 ≤ p1 * q1 →
        Nat.Prime p2 → Nat.Prime q2 → p2 ≠ q2 →
          Nat.Coprime 65537 (Nat.lcm (p2 - 1) (q2 - 1)) → 2 ^ 265 ≤ p2 * q2 →
        SecurityManager.sign_data (SecurityManager.generate_rsa_keypair p1 q1).1 data ent =
          .ok sig →
        SecurityManager.verify_signature
          (SecurityManager.generate_rsa_keypair p2 q2).2 data sig = .ok false) := by
  intro hall
  obtain ⟨sig, hsig, hver⟩ := keypair_sign_verify rsaP rsaQ [] zeroEnt rsaP_prime rsaQ_prime
    (by decide) (by decide) (by decide)
  have hfalse := hall rsaP rsaQ rsaP rsaQ [] sig zeroEnt rsaP_prime rsaQ_prime (by decide)
    (by decide) (by decide) rsaP_prime rsaQ_prime (by decide) (by decide) (by decide) hsig
  rw [hver] at hfalse
  injection hfalse with h
  cases h

/-- C6 (amended): when the public-key PEM parses, `verify_signature` never
raises: it returns a plain boolean, and a wrong-length (malformed) signature
or any failed check yields False; when the PEM does not parse, the
KeyFormatError raised by `load_pem_public_key` propagates past the call
boundary, because the parse happens outside the try block. -/
theorem verify_signature_behaviour (pem data s : List Byte) :
    (∀ ne : Nat × Nat, pubPemParse pem = some ne →
      SecurityManager.verify_signature pem data s = .ok (rsaPssVerify ne.1 ne.2 data s)) ∧
      (pubPemParse pem = none →
        SecurityManager.verify_signature pem data s = .error .keyFormat) ∧
      (∀ n e : Nat, pubPemParse pem = some (n, e) → s.length ≠ sigLen n →
        SecurityManager.verify_signature pem data s = .ok false) := by
  refine ⟨?_, ?_, ?_⟩
  · intro ne hp
    unfold SecurityManager.verify_signature
    rw [hp]
  · intro hp
    unfold SecurityManager.verify_signature
    rw [hp]
  · intro n e hp hlen
    unfold SecurityManager.verify_signature
    rw [hp]
    unfold rsaPssVerify
    simp [hlen]

/-- A signature is always at least one byte long. -/
theorem sigLen_pos (n : Nat) : 1 ≤ sigLen n := by
  show 1 ≤ (Nat.log2 n + 1 + 7) / 8
  omega

/-- C6 witness: a valid public key with an empty (hence wrong-length,
malformed) signature returns False rather than raising. -/
theorem verify_signature_behaviour_w :
    SecurityManager.verify_signature (pubPemEncode 3233 65537) [] [] = .ok false :=
  (verify_signature_behaviour (pubPemEncode 3233 65537) [] []).2.2 3233 65537
    (pubPemParse_encode 3233 65537 (by norm_num))
    (by
      have h := sigLen_pos 3233
      rw [List.length_nil]
      omega)

/-- C6 counterexample: a malformed public-key PEM (here: empty bytes) does
not yield the boolean false — the parse failure raises KeyFormatError past
the boundary of the call, refuting "never raises" as stated. -/
theorem verify_signature_malformed_pem_raises :
    SecurityManager.verify_signature [] [] [] = .error .keyFormat := rfl

end FLSec
